import Mathlib

/-!
# Verification of the leap-second-aware time conversion subsystem of ts_utils

This file gives a shallow embedding, over exact rationals, of the core of
`python/lsst/ts/utils/tai.py`:

* the leap second tables (`_UTC_LEAP_SECOND_TABLE` / `_TAI_LEAP_SECOND_TABLE`,
  lists of `(unix_seconds, TAI-UTC seconds)` pairs),
* the conversion functions `tai_from_utc_unix` and `utc_from_tai_unix`,
* the table construction step of `_update_leap_second_table`,
* the table refresh lifecycle (initial load at import time, background timer),
* the clock-source probe `_get_current_tai_function` and `current_tai`.

Python floats are modelled by `ℚ` (idealised exact arithmetic); fallible code
returns `Except` with one constructor per distinct error path of the source.
-/

namespace TsUtils

/-- `SECONDS_PER_DAY = 24 * 60 * 60` (tai.py line 47), used as a rational. -/
def SECONDS_PER_DAY : ℚ := 24 * 60 * 60

/-- A leap second table: a list of `(unix_seconds, TAI-UTC seconds)` pairs,
mirroring `_UTC_LEAP_SECOND_TABLE` / `_TAI_LEAP_SECOND_TABLE` in tai.py. -/
abbrev LeapTable := List (ℚ × ℚ)

/-- The distinct error paths of the conversion functions in tai.py:
`noTable` is the `RuntimeError("No leap second table")` raised when the global
table is `None` (modelled here by the empty list), `outOfRange` and
`beforeTableStart` are the two `ValueError`s, and `indexError` is a Python
`IndexError` from an out-of-bounds list access. -/
inductive TaiError where
  | noTable
  | outOfRange
  | beforeTableStart
  | indexError
deriving DecidableEq, Repr

instance {ε α : Type} [DecidableEq ε] [DecidableEq α] : DecidableEq (Except ε α) :=
  fun x y =>
    match x, y with
    | .ok a, .ok b =>
      if h : a = b then .isTrue (by rw [h]) else .isFalse (by simp [h])
    | .error a, .error b =>
      if h : a = b then .isTrue (by rw [h]) else .isFalse (by simp [h])
    | .ok _, .error _ => .isFalse (by simp)
    | .error _, .ok _ => .isFalse (by simp)

/-- `bisect.bisect(table, (x, math.inf))` (tai.py lines 186 and 246).

On a table sorted by first field whose second fields are all finite,
Python's `bisect.bisect` returns the insertion point of `(x, inf)`, i.e. the
number of entries `(u, off)` with `(u, off) < (x, inf)`, i.e. with `u ≤ x`
(when `u = x` the comparison falls through to `off < inf`, which holds). -/
def bisect (table : LeapTable) (x : ℚ) : ℕ :=
  table.countP (fun e => e.1 ≤ x)

/-- `tai_from_utc_unix(utc_unix)` (tai.py lines 146-203): return TAI in unix
seconds given UTC in unix seconds, smearing time evenly on the day before a
leap second.  The leap second table is passed explicitly; the Python global
being `None` is modelled by the empty list (`getLast? = none`). -/
def tai_from_utc_unix (table : LeapTable) (utc_unix : ℚ) : Except TaiError ℚ :=
  match table.getLast? with
  | none => .error .noTable
  | some last =>
    -- line 181: if utc_unix > utc_leap_second_table[-1][0] - SECONDS_PER_DAY
    if utc_unix > last.1 - SECONDS_PER_DAY then .error .outOfRange
    else
      -- line 186: i = bisect.bisect(utc_leap_second_table, (utc_unix, math.inf))
      let i := bisect table utc_unix
      if i = 0 then .error .beforeTableStart
      else
        -- lines 192-193: utc0, tai_minus_utc0 = table[i-1]; utc1, tai_minus_utc1 = table[i]
        match table[i-1]?, table[i]? with
        | some e0, some e1 =>
          -- line 194: if utc_unix + SECONDS_PER_DAY > utc1
          if utc_unix + SECONDS_PER_DAY > e1.1 then
            -- lines 198-200: smear uniformly over the day
            let utc_days := utc_unix / SECONDS_PER_DAY
            let frac_day := utc_days - ⌊utc_days⌋
            .ok (utc_unix + (e0.2 + (e1.2 - e0.2) * frac_day))
          else
            .ok (utc_unix + e0.2)
        | _, _ => .error .indexError

/-- `utc_from_tai_unix(tai_unix)` (tai.py lines 206-253): return UTC in unix
seconds given TAI in unix seconds; the difference is always a table offset
(no smearing).  Note the upper bound check is against the last entry itself,
with no one-day margin (line 241). -/
def utc_from_tai_unix (table : LeapTable) (tai_unix : ℚ) : Except TaiError ℚ :=
  match table.getLast? with
  | none => .error .noTable
  | some last =>
    -- line 241: if tai_unix > tai_leap_second_table[-1][0]
    if tai_unix > last.1 then .error .outOfRange
    else
      -- line 246: i = bisect.bisect(tai_leap_second_table, (tai_unix, math.inf))
      let i := bisect table tai_unix
      if i = 0 then .error .beforeTableStart
      else
        -- line 252: tai_minus_utc = tai_leap_second_table[i - 1][1]
        match table[i-1]? with
        | some e0 => .ok (tai_unix - e0.2)
        | none => .error .indexError

/-- One raw leap second record as read from the astropy table in
`_update_leap_second_table` (tai.py lines 278-287): a row with a `year`, a
`month` and a `tai_utc` offset.  The field `utc_unix` carries the value of
`astropy.time.Time(datetime(year, month, 1)).unix` for the row; that calendar
conversion is performed by astropy (an external collaborator), so the record
carries its result rather than recomputing it. -/
structure LeapSecondRecord where
  year : ℤ
  month : ℕ
  utc_unix : ℚ
  tai_utc : ℚ
deriving DecidableEq, Repr

/-- The table construction step of `_update_leap_second_table`
(tai.py lines 277-296): filter rows with `year >= 1972`, map each row to
`(utc_unix, tai_utc)`, append the sentinel `(expiry, last offset)`, and derive
the TAI-ordered table entrywise.  `utc_leap_second_table[-1][1]` on an empty
list raises `IndexError` (line 289), modelled by `none`; nothing else in the
construction can fail (in particular, unsorted input is NOT detected). -/
def update_leap_second_table (records : List LeapSecondRecord) (expiry : ℚ) :
    Option (LeapTable × LeapTable) :=
  let utc_table :=
    (records.filter (fun r => 1972 ≤ r.year)).map (fun r => (r.utc_unix, r.tai_utc))
  match utc_table.getLast? with
  | none => none
  | some last =>
    let utc_full := utc_table ++ [(expiry, last.2)]
    let tai_full := utc_full.map (fun e => (e.1 + e.2, e.2))
    some (utc_full, tai_full)

/-- Modelled from the spec: the records supplied by the external leap-second
data collaborator (`astropy.utils.iers.LeapSeconds.auto_open()`), which is not
part of this repository.  These are the published IERS leap seconds from
1972-01-01 (offset 10 s, per spec section 3) through 2017-01-01 (offset
36 s → 37 s, per spec section 8); each `utc_unix` is the unix time of
midnight UTC on the 1st of the given month. -/
def LEAP_SECOND_RECORDS : List LeapSecondRecord :=
  [ ⟨1972, 1, 63072000, 10⟩, ⟨1972, 7, 78796800, 11⟩, ⟨1973, 1, 94694400, 12⟩,
    ⟨1974, 1, 126230400, 13⟩, ⟨1975, 1, 157766400, 14⟩, ⟨1976, 1, 189302400, 15⟩,
    ⟨1977, 1, 220924800, 16⟩, ⟨1978, 1, 252460800, 17⟩, ⟨1979, 1, 283996800, 18⟩,
    ⟨1980, 1, 315532800, 19⟩, ⟨1981, 7, 362793600, 20⟩, ⟨1982, 7, 394329600, 21⟩,
    ⟨1983, 7, 425865600, 22⟩, ⟨1985, 7, 489024000, 23⟩, ⟨1988, 1, 567993600, 24⟩,
    ⟨1990, 1, 631152000, 25⟩, ⟨1991, 1, 662688000, 26⟩, ⟨1992, 7, 709948800, 27⟩,
    ⟨1993, 7, 741484800, 28⟩, ⟨1994, 7, 773020800, 29⟩, ⟨1996, 1, 820454400, 30⟩,
    ⟨1997, 7, 867715200, 31⟩, ⟨1999, 1, 915148800, 32⟩, ⟨2006, 1, 1136073600, 33⟩,
    ⟨2009, 1, 1230768000, 34⟩, ⟨2012, 7, 1341100800, 35⟩, ⟨2015, 7, 1435708800, 36⟩,
    ⟨2017, 1, 1483228800, 37⟩ ]

/-- Modelled from the spec: a concrete expiration timestamp for the table
(2017-12-28T00:00:00Z), standing in for `ap_table.expires.unix`, which comes
from the external data collaborator. -/
def TABLE_EXPIRY : ℚ := 1514419200

/-- The UTC-ordered leap second table built from the concrete records. -/
def utcLeapTable : LeapTable :=
  ((update_leap_second_table LEAP_SECOND_RECORDS TABLE_EXPIRY).getD ([], [])).1

/-- The TAI-ordered leap second table built from the concrete records. -/
def taiLeapTable : LeapTable :=
  ((update_leap_second_table LEAP_SECOND_RECORDS TABLE_EXPIRY).getD ([], [])).2

/-! ## Lookup lemmas: `bisect` on a table sorted by first field -/

/-- In a table strictly sorted by first field, keys are monotone in the index. -/
lemma key_lt_key {t : LeapTable} (hs : t.Pairwise (fun a b => a.1 < b.1))
    {i j : ℕ} (hij : i < j) (hj : j < t.length) : t[i].1 < t[j].1 :=
  List.pairwise_iff_getElem.mp hs i j (lt_trans hij hj) hj hij

/-- Non-strict version of `key_lt_key`. -/
lemma key_le_key {t : LeapTable} (hs : t.Pairwise (fun a b => a.1 < b.1))
    {i j : ℕ} (hij : i ≤ j) (hj : j < t.length) : t[i].1 ≤ t[j].1 := by
  rcases lt_or_eq_of_le hij with h | h
  · exact le_of_lt (key_lt_key hs h hj)
  · subst h; exact le_refl _

lemma bisect_le_length {t : LeapTable} {x : ℚ} : bisect t x ≤ t.length :=
  List.countP_le_length _

/-- Every index below the insertion point has key `≤ x`. -/
lemma le_of_lt_bisect {t : LeapTable} {x : ℚ}
    (hs : t.Pairwise (fun a b => a.1 < b.1)) {k : ℕ} (hk : k < t.length)
    (h : k < bisect t x) : t[k].1 ≤ x := by
  by_contra hlt
  push_neg at hlt
  have hdrop : (t.drop k).countP (fun e => e.1 ≤ x) = 0 := by
    rw [List.countP_eq_zero]
    intro a ha
    rw [List.mem_iff_getElem] at ha
    obtain ⟨i, hi, rfl⟩ := ha
    rw [List.getElem_drop]
    simp only [decide_eq_true_eq, not_le]
    rcases Nat.eq_zero_or_pos i with hz | hpos
    · subst hz; simpa using hlt
    · exact lt_trans hlt (key_lt_key hs (by omega) (by
        have := hi; simp [List.length_drop] at this; omega))
  have hsplit : bisect t x =
      (t.take k).countP (fun e => e.1 ≤ x) + (t.drop k).countP (fun e => e.1 ≤ x) := by
    rw [bisect]
    conv_lhs => rw [← List.take_append_drop k t]
    rw [List.countP_append]
  have htake : (t.take k).countP (fun e => e.1 ≤ x) ≤ k := by
    calc (t.take k).countP (fun e => e.1 ≤ x) ≤ (t.take k).length :=
          List.countP_le_length _
      _ ≤ k := by rw [List.length_take]; omega
  omega

/-- Every index at or above the insertion point has key `> x`. -/
lemma lt_of_bisect_le {t : LeapTable} {x : ℚ}
    (hs : t.Pairwise (fun a b => a.1 < b.1)) {k : ℕ} (hk : k < t.length)
    (h : bisect t x ≤ k) : x < t[k].1 := by
  by_contra hle
  push_neg at hle
  have htake : (t.take (k+1)).countP (fun e => e.1 ≤ x) = (t.take (k+1)).length := by
    rw [List.countP_eq_length]
    intro a ha
    rw [List.mem_iff_getElem] at ha
    obtain ⟨i, hi, rfl⟩ := ha
    rw [List.getElem_take]
    simp only [decide_eq_true_eq]
    have hik : i ≤ k := by
      rw [List.length_take] at hi; omega
    exact le_trans (key_le_key hs hik hk) hle
  have hsplit : bisect t x =
      (t.take (k+1)).countP (fun e => e.1 ≤ x) + (t.drop (k+1)).countP (fun e => e.1 ≤ x) := by
    rw [bisect]
    conv_lhs => rw [← List.take_append_drop (k+1) t]
    rw [List.countP_append]
  have hlen : (t.take (k+1)).length = k + 1 := by
    rw [List.length_take]; omega
  omega

/-- Characterization of the insertion point: if `t[j].1 ≤ x` and every later
key exceeds `x`, then `bisect t x = j + 1`. -/
lemma bisect_eq {t : LeapTable} {x : ℚ}
    (hs : t.Pairwise (fun a b => a.1 < b.1)) {j : ℕ} (hj : j < t.length)
    (h0 : t[j].1 ≤ x) (h1 : ∀ k (hk : k < t.length), j < k → x < t[k].1) :
    bisect t x = j + 1 := by
  have hge : j + 1 ≤ bisect t x := by
    by_contra hcon
    push_neg at hcon
    exact absurd (lt_of_bisect_le hs hj (by omega)) (not_lt.mpr h0)
  have hle : bisect t x ≤ j + 1 := by
    by_contra hcon
    push_neg at hcon
    have hlen : j + 1 < t.length := lt_of_lt_of_le hcon bisect_le_length
    exact absurd (le_of_lt_bisect hs hlen (by omega))
      (not_le.mpr (h1 (j+1) hlen (by omega)))
  omega

/-- A nonempty table whose last key exceeds `x` has insertion point `< length`. -/
lemma bisect_lt_length {t : LeapTable} {x : ℚ} (hne : 0 < t.length)
    (hlast : x < t[t.length - 1].1) : bisect t x < t.length := by
  have hne' : bisect t x ≠ t.length := by
    intro hcon
    have hall := List.countP_eq_length.mp hcon
    have := hall (t[t.length - 1]) (List.getElem_mem (by omega))
    simp only [decide_eq_true_eq] at this
    exact absurd this (not_le.mpr hlast)
  exact lt_of_le_of_ne bisect_le_length hne'

/-- A table whose first key is `≤ x` has positive insertion point. -/
lemma bisect_pos {t : LeapTable} {x : ℚ} (hne : 0 < t.length)
    (hfirst : t[0].1 ≤ x) : 0 < bisect t x := by
  rw [bisect, List.countP_pos_iff]
  exact ⟨t[0], List.getElem_mem hne, by simpa using hfirst⟩

/-! ## Evaluation lemmas for the two conversion functions -/

lemma getLast?_eq_some {t : LeapTable} (hne : 0 < t.length) :
    t.getLast? = some t[t.length - 1] := by
  rw [List.getLast?_eq_getElem?, List.getElem?_eq_getElem (by omega)]

/-- Evaluation of `tai_from_utc_unix` at a point whose predecessor entry is at
index `j`: the result is the input plus the offset, which is interpolated
exactly when the input is within a day of the next boundary `t[j+1].1`. -/
lemma tai_from_utc_unix_eval {t : LeapTable} {x : ℚ}
    (hs : t.Pairwise (fun a b => a.1 < b.1)) {j : ℕ} (hj1 : j + 1 < t.length)
    (h0 : t[j].1 ≤ x) (h1 : x < t[j+1].1)
    (hup : x ≤ t[t.length - 1].1 - SECONDS_PER_DAY) :
    tai_from_utc_unix t x =
      .ok (x + (if x + SECONDS_PER_DAY > t[j+1].1 then
          t[j].2 + (t[j+1].2 - t[j].2) * (x / SECONDS_PER_DAY - ⌊x / SECONDS_PER_DAY⌋)
        else t[j].2)) := by
  have hbis : bisect t x = j + 1 := by
    refine bisect_eq hs (by omega) h0 (fun k hk hjk => ?_)
    exact lt_of_lt_of_le h1 (key_le_key hs (by omega) hk)
  rw [tai_from_utc_unix, getLast?_eq_some (by omega)]
  simp only [hbis, Nat.add_sub_cancel]
  rw [if_neg (not_lt.mpr hup), if_neg (by omega : ¬ j + 1 = 0),
    List.getElem?_eq_getElem (by omega : j < t.length),
    List.getElem?_eq_getElem (by omega : j + 1 < t.length)]
  by_cases hc : x + SECONDS_PER_DAY > t[j+1].1 <;> simp [hc]

/-- Flat-branch corollary of `tai_from_utc_unix_eval`: more than a day before
the next boundary, the predecessor's offset applies unchanged. -/
lemma tai_from_utc_unix_eval_flat {t : LeapTable} {x : ℚ}
    (hs : t.Pairwise (fun a b => a.1 < b.1)) {j : ℕ} (hj1 : j + 1 < t.length)
    (h0 : t[j].1 ≤ x) (hflat : x + SECONDS_PER_DAY ≤ t[j+1].1)
    (hup : x ≤ t[t.length - 1].1 - SECONDS_PER_DAY) :
    tai_from_utc_unix t x = .ok (x + t[j].2) := by
  have h1 : x < t[j+1].1 := by
    have hD : (0:ℚ) < SECONDS_PER_DAY := by norm_num [SECONDS_PER_DAY]
    linarith
  rw [tai_from_utc_unix_eval hs hj1 h0 h1 hup, if_neg (not_lt.mpr hflat)]

/-- Evaluation of `utc_from_tai_unix` at a point whose predecessor entry is at
index `j`: the result subtracts the predecessor's offset, with no smearing. -/
lemma utc_from_tai_unix_eval {t : LeapTable} {x : ℚ}
    (hs : t.Pairwise (fun a b => a.1 < b.1)) {j : ℕ} (hj : j < t.length)
    (h0 : t[j].1 ≤ x) (h1 : ∀ k (hk : k < t.length), j < k → x < t[k].1)
    (hup : x ≤ t[t.length - 1].1) :
    utc_from_tai_unix t x = .ok (x - t[j].2) := by
  have hbis : bisect t x = j + 1 := bisect_eq hs hj h0 h1
  rw [utc_from_tai_unix, getLast?_eq_some (by omega)]
  simp only [hbis, Nat.add_sub_cancel]
  rw [if_neg (not_lt.mpr hup), if_neg (by omega : ¬ j + 1 = 0),
    List.getElem?_eq_getElem (by omega : j < t.length)]

/-- The insertion point is `0` exactly below the first key. -/
lemma bisect_eq_zero {t : LeapTable} {x : ℚ}
    (hs : t.Pairwise (fun a b => a.1 < b.1)) (hne : 0 < t.length)
    (hfirst : x < t[0].1) : bisect t x = 0 := by
  rw [bisect, List.countP_eq_zero]
  intro a ha
  rw [List.mem_iff_getElem] at ha
  obtain ⟨i, hi, rfl⟩ := ha
  simp only [decide_eq_true_eq, not_le]
  exact lt_of_lt_of_le hfirst (key_le_key hs (Nat.zero_le i) hi)

/-- In range, `tai_from_utc_unix` always returns a value (no `IndexError`). -/
lemma tai_from_utc_unix_ok {t : LeapTable} {x : ℚ}
    (hs : t.Pairwise (fun a b => a.1 < b.1)) (hne : 0 < t.length)
    (hlow : t[0].1 ≤ x) (hup : x ≤ t[t.length - 1].1 - SECONDS_PER_DAY) :
    ∃ v, tai_from_utc_unix t x = .ok v := by
  have hD : (0:ℚ) < SECONDS_PER_DAY := by norm_num [SECONDS_PER_DAY]
  have hpos : 0 < bisect t x := bisect_pos hne hlow
  have hlt : bisect t x < t.length := bisect_lt_length hne (by linarith)
  have h0 : t[bisect t x - 1].1 ≤ x := le_of_lt_bisect hs (by omega) (by omega)
  have h1 : x < t[bisect t x - 1 + 1].1 := by
    simp only [show bisect t x - 1 + 1 = bisect t x from by omega]
    exact lt_of_bisect_le hs hlt (le_refl _)
  exact ⟨_, tai_from_utc_unix_eval hs (by omega) h0 h1 hup⟩

/-! ## Claim theorems -/

/-- C1: for every UTC unix time `t` accepted by `tai_from_utc_unix`
(predecessor entry at index `j`, `t` at most a day before the table's last
entry), the result is `t + offset`: `offset` is the predecessor's offset
`table[j].2` when `t + 86400 ≤ table[j+1].1`, and is the linear interpolation
`off0 + (off1 - off0) * frac` with `frac` the fractional part of `t / 86400`
when `t + 86400 > table[j+1].1`. -/
theorem claim_C1 (table : LeapTable) (hs : table.Pairwise (fun a b => a.1 < b.1))
    (t : ℚ) (j : ℕ) (hj1 : j + 1 < table.length)
    (h0 : table[j].1 ≤ t) (h1 : t < table[j+1].1)
    (hup : t ≤ table[table.length - 1].1 - SECONDS_PER_DAY) :
    (t + SECONDS_PER_DAY ≤ table[j+1].1 →
      tai_from_utc_unix table t = .ok (t + table[j].2))
    ∧ (table[j+1].1 < t + SECONDS_PER_DAY →
      tai_from_utc_unix table t =
        .ok (t + (table[j].2 + (table[j+1].2 - table[j].2) *
          (t / SECONDS_PER_DAY - ⌊t / SECONDS_PER_DAY⌋)))) := by
  constructor
  · intro hflat
    exact tai_from_utc_unix_eval_flat hs hj1 h0 hflat hup
  · intro hsmear
    rw [tai_from_utc_unix_eval hs hj1 h0 h1 hup, if_pos hsmear]

/-- Witness for C1 on the concrete 2017-era table: `t` one second before the
2017-01-01 leap second (predecessor index 26), in the smear branch. -/
theorem claim_C1_witness :
    (utcLeapTable.Pairwise (fun a b => a.1 < b.1)) ∧
    tai_from_utc_unix utcLeapTable 1483228799 =
      .ok (1483228799 + (36 + (37 - 36) *
        ((1483228799 : ℚ) / SECONDS_PER_DAY - ⌊(1483228799 : ℚ) / SECONDS_PER_DAY⌋))) := by
  refine ⟨by decide, ?_⟩
  have h := (claim_C1 utcLeapTable (by decide) 1483228799 26 (by decide)
    (by decide) (by decide) (by with_unfolding_all decide)).2
    (by with_unfolding_all decide)
  exact h

/-- Error branch of `utc_from_tai_unix` above the last entry (tai.py line 241):
no one-day margin on this side. -/
lemma utc_from_tai_unix_outOfRange {t : LeapTable} {x : ℚ} (hne : 0 < t.length)
    (h : t[t.length - 1].1 < x) :
    utc_from_tai_unix t x = .error .outOfRange := by
  rw [utc_from_tai_unix, getLast?_eq_some hne]
  simp only [if_pos h]

/-- Error branch of `utc_from_tai_unix` below the first entry (tai.py line 247). -/
lemma utc_from_tai_unix_beforeStart {t : LeapTable} {x : ℚ}
    (hs : t.Pairwise (fun a b => a.1 < b.1)) (hne : 0 < t.length)
    (hlt : x < t[0].1) :
    utc_from_tai_unix t x = .error .beforeTableStart := by
  have hle : x ≤ t[t.length - 1].1 :=
    le_of_lt (lt_of_lt_of_le hlt (key_le_key hs (Nat.zero_le _) (by omega)))
  rw [utc_from_tai_unix, getLast?_eq_some hne]
  simp only [if_neg (not_lt.mpr hle), bisect_eq_zero hs hne hlt, if_true]

/-- Error branch of `tai_from_utc_unix` above `expiry - 86400` (tai.py line 181). -/
lemma tai_from_utc_unix_outOfRange {t : LeapTable} {x : ℚ} (hne : 0 < t.length)
    (h : t[t.length - 1].1 - SECONDS_PER_DAY < x) :
    tai_from_utc_unix t x = .error .outOfRange := by
  rw [tai_from_utc_unix, getLast?_eq_some hne]
  simp only [if_pos h]

/-- Error branch of `tai_from_utc_unix` below the first entry (tai.py line 187). -/
lemma tai_from_utc_unix_beforeStart {t : LeapTable} {x : ℚ}
    (hs : t.Pairwise (fun a b => a.1 < b.1)) (hne : 0 < t.length)
    (hup : x ≤ t[t.length - 1].1 - SECONDS_PER_DAY) (hlt : x < t[0].1) :
    tai_from_utc_unix t x = .error .beforeTableStart := by
  rw [tai_from_utc_unix, getLast?_eq_some hne]
  simp only [if_neg (not_lt.mpr hup), bisect_eq_zero hs hne hlt, if_true]

/-- C2: for every TAI unix time `t` within the table range, `utc_from_tai_unix`
returns `t` minus the offset of the predecessor entry (the last entry with key
`≤ t`, per the spec's strict-predecessor lookup) — a plain step function with
no smearing; it fails `outOfRange` for `t` strictly above the last entry (no
one-day margin) and `beforeTableStart` for `t` below the first. -/
theorem claim_C2 (table : LeapTable) (hs : table.Pairwise (fun a b => a.1 < b.1))
    (hne : 0 < table.length) :
    (∀ (t : ℚ) (j : ℕ) (hj : j < table.length), table[j].1 ≤ t →
      (∀ k (hk : k < table.length), j < k → t < table[k].1) →
      t ≤ table[table.length - 1].1 →
      utc_from_tai_unix table t = .ok (t - table[j].2))
    ∧ (∀ t : ℚ, table[table.length - 1].1 < t →
        utc_from_tai_unix table t = .error .outOfRange)
    ∧ (∀ t : ℚ, t < table[0].1 →
        utc_from_tai_unix table t = .error .beforeTableStart) :=
  ⟨fun _ _ hj h0 h1 hup => utc_from_tai_unix_eval hs hj h0 h1 hup,
   fun _ h => utc_from_tai_unix_outOfRange hne h,
   fun _ h => utc_from_tai_unix_beforeStart hs hne h⟩

/-- Witness for C2 on the concrete TAI-ordered table: `t` exactly at the
2017-01-01 boundary entry (index 27, offset 37), and at the exact last entry
(no one-day margin on the upper bound). -/
theorem claim_C2_witness :
    utc_from_tai_unix taiLeapTable 1483228837 = .ok (1483228837 - 37)
    ∧ utc_from_tai_unix taiLeapTable 1514419237 = .ok (1514419237 - 37) := by
  have h := claim_C2 taiLeapTable (by with_unfolding_all decide)
    (by with_unfolding_all decide)
  refine ⟨?_, ?_⟩
  · have := h.1 1483228837 27 (by with_unfolding_all decide)
      (by with_unfolding_all decide) (by with_unfolding_all decide)
      (by with_unfolding_all decide)
    with_unfolding_all exact this
  · have := h.1 1514419237 28 (by with_unfolding_all decide)
      (by with_unfolding_all decide) (by with_unfolding_all decide)
      (by with_unfolding_all decide)
    with_unfolding_all exact this

/-- C3: `tai_from_utc_unix` fails `outOfRange` exactly when the input exceeds
the last entry minus 86400 s, fails `beforeTableStart` exactly when the input
is below the first entry, and returns a value for every input between those
bounds — no input is silently clamped.  The hypothesis `hspan` (first entry at
least a day before expiry) holds for every real leap second table. -/
theorem claim_C3 (table : LeapTable) (hs : table.Pairwise (fun a b => a.1 < b.1))
    (hlen : 0 < table.length)
    (hspan : table[0].1 + SECONDS_PER_DAY ≤ table[table.length - 1].1) (t : ℚ) :
    (tai_from_utc_unix table t = .error .outOfRange ↔
      table[table.length - 1].1 - SECONDS_PER_DAY < t)
    ∧ (tai_from_utc_unix table t = .error .beforeTableStart ↔ t < table[0].1)
    ∧ (table[0].1 ≤ t → t ≤ table[table.length - 1].1 - SECONDS_PER_DAY →
        ∃ v, tai_from_utc_unix table t = .ok v) := by
  refine ⟨⟨fun he => ?_, fun h => tai_from_utc_unix_outOfRange hlen h⟩,
    ⟨fun he => ?_, fun h => tai_from_utc_unix_beforeStart hs hlen (by linarith) h⟩,
    fun hlow hup => tai_from_utc_unix_ok hs hlen hlow hup⟩
  · by_contra hc
    push_neg at hc
    rcases lt_or_le t table[0].1 with hlt | hge
    · rw [tai_from_utc_unix_beforeStart hs hlen hc hlt] at he
      exact absurd (Except.error.inj he) (by simp)
    · obtain ⟨v, hv⟩ := tai_from_utc_unix_ok hs hlen hge hc
      rw [hv] at he
      exact Except.noConfusion he
  · by_contra hc
    push_neg at hc
    rcases lt_or_le (table[table.length - 1].1 - SECONDS_PER_DAY) t with hgt | hle
    · rw [tai_from_utc_unix_outOfRange hlen hgt] at he
      exact absurd (Except.error.inj he) (by simp)
    · obtain ⟨v, hv⟩ := tai_from_utc_unix_ok hs hlen hc hle
      rw [hv] at he
      exact Except.noConfusion he

/-- Witness for C3 on the concrete table: `expiry - 86400 + 0.001` fails
`outOfRange`, exactly `expiry - 86400` succeeds, and `first - 0.001` fails
`beforeTableStart`. -/
theorem claim_C3_witness :
    tai_from_utc_unix utcLeapTable (1514332800 + 1/1000) = .error .outOfRange
    ∧ (∃ v, tai_from_utc_unix utcLeapTable 1514332800 = .ok v)
    ∧ tai_from_utc_unix utcLeapTable (63072000 - 1/1000) = .error .beforeTableStart := by
  have h := claim_C3 utcLeapTable (by decide) (by decide)
    (by with_unfolding_all decide)
  exact ⟨(h (1514332800 + 1/1000)).1.mpr (by with_unfolding_all decide),
    (h 1514332800).2.2 (by with_unfolding_all decide) (by with_unfolding_all decide),
    (h (63072000 - 1/1000)).2.1.mpr (by with_unfolding_all decide)⟩

/-- C10: for an accepted input (`t ≤ last entry - 86400`) whose successor found
by the lookup is the table's last entry (the expiry sentinel,
`bisect = length - 1`), the smearing condition `t + 86400 > utc1` cannot hold,
so the result is the flat predecessor offset: interpolation toward the
sentinel is unreachable. -/
theorem claim_C10 (table : LeapTable) (hs : table.Pairwise (fun a b => a.1 < b.1))
    (t : ℚ) (j : ℕ) (hlen : 2 ≤ table.length)
    (hbis : bisect table t = j + 1) (hlast : j + 1 = table.length - 1)
    (hup : t ≤ table[table.length - 1].1 - SECONDS_PER_DAY) :
    ¬ (t + SECONDS_PER_DAY > table[j+1].1)
    ∧ tai_from_utc_unix table t = .ok (t + table[j].2) := by
  have hj1 : j + 1 < table.length := by omega
  have hflat : t + SECONDS_PER_DAY ≤ table[j+1].1 := by
    simp only [hlast]
    linarith
  have h0 : table[j].1 ≤ t := le_of_lt_bisect hs (by omega) (by omega)
  exact ⟨not_lt.mpr hflat, tai_from_utc_unix_eval_flat hs hj1 h0 hflat hup⟩

/-- Witness for C10 on the concrete table: `t = expiry - 86400`, the largest
accepted input, whose successor is the sentinel (index 28). -/
theorem claim_C10_witness :
    ¬ ((1514332800 : ℚ) + SECONDS_PER_DAY > (utcLeapTable.get ⟨28, by decide⟩).1)
    ∧ tai_from_utc_unix utcLeapTable 1514332800 =
        .ok (1514332800 + (utcLeapTable.get ⟨27, by decide⟩).2) :=
  claim_C10 utcLeapTable (by decide) 1514332800 27 (by decide) (by decide)
    (by decide) (by with_unfolding_all decide)

/-- Evaluation of `tai_from_utc_unix` with the predecessor and successor
entries, the last entry and their fields given as explicit values, so that
concrete instances avoid dependent index proofs. -/
lemma tai_from_utc_unix_eval_entries {t : LeapTable} {x : ℚ} {j : ℕ}
    (u0 o0 u1 o1 uL oL : ℚ)
    (hs : t.Pairwise (fun a b => a.1 < b.1))
    (he0 : t[j]? = some (u0, o0)) (he1 : t[j+1]? = some (u1, o1))
    (hlast : t.getLast? = some (uL, oL))
    (h0 : u0 ≤ x) (h1 : x < u1) (hup : x ≤ uL - SECONDS_PER_DAY) :
    tai_from_utc_unix t x =
      .ok (x + (if x + SECONDS_PER_DAY > u1 then
          o0 + (o1 - o0) * (x / SECONDS_PER_DAY - ⌊x / SECONDS_PER_DAY⌋)
        else o0)) := by
  obtain ⟨hj0, hje0⟩ := List.getElem?_eq_some_iff.mp he0
  obtain ⟨hj1, hje1⟩ := List.getElem?_eq_some_iff.mp he1
  have hbis : bisect t x = j + 1 := by
    refine bisect_eq hs (by omega) (by rw [hje0]; exact h0) (fun k hk hjk => ?_)
    have hmono : t[j+1].1 ≤ t[k].1 := key_le_key hs (by omega) hk
    rw [hje1] at hmono
    exact lt_of_lt_of_le h1 hmono
  rw [tai_from_utc_unix, hlast]
  simp only [hbis, Nat.add_sub_cancel, he0, he1]
  rw [if_neg (not_lt.mpr hup), if_neg (by omega : ¬ j + 1 = 0)]
  by_cases hc : x + SECONDS_PER_DAY > u1 <;> simp [hc]

/-- Evaluation of `tai_from_utc_unix` one second before the 2017-01-01
leap-second boundary on the concrete table: the smear branch applies, with
fractional day `86399/86400`. -/
lemma tai_from_utc_unix_before_2017_boundary :
    tai_from_utc_unix utcLeapTable 1483228799 =
      .ok (1483228799 + 36 + 86399/86400) := by
  have h := tai_from_utc_unix_eval_entries (t := utcLeapTable) (x := 1483228799)
    (j := 26) 1435708800 36 1483228800 37 1514419200 37 (by decide) (by decide)
    (by decide) (by decide) (by decide) (by decide) (by norm_num [SECONDS_PER_DAY])
  rw [h, if_pos (by norm_num [SECONDS_PER_DAY])]
  have hfl : ⌊(1483228799:ℚ) / SECONDS_PER_DAY⌋ = 17166 := by
    rw [Int.floor_eq_iff]
    norm_num [SECONDS_PER_DAY]
  rw [hfl]
  norm_num [SECONDS_PER_DAY]

/-- C6 counterexample: one second before the 2017-01-01 leap-second boundary
the code does NOT return `utc0 - 1 + 36`: the day before a leap second is
smeared (tai.py lines 194-200), so the offset there is already
`36 + 86399/86400`, not `36`. -/
theorem claim_C6_counterexample :
    tai_from_utc_unix utcLeapTable 1483228799 ≠ .ok (1483228799 + 36) := by
  rw [tai_from_utc_unix_before_2017_boundary]
  simp only [Ne, Except.ok.injEq]
  norm_num

/-- C6 (amended): at exactly `utc0 = 1483228800` (2017-01-01T00:00:00Z, where
the offset changes 36 → 37), `tai_from_utc_unix utc0 = utc0 + 37`; one second
before the boundary the result is the smeared value
`utc0 - 1 + 36 + 86399/86400` (not `utc0 - 1 + 36`). -/
theorem claim_C6 :
    tai_from_utc_unix utcLeapTable 1483228800 = .ok (1483228800 + 37)
    ∧ tai_from_utc_unix utcLeapTable 1483228799 =
        .ok (1483228799 + 36 + 86399/86400) := by
  refine ⟨?_, tai_from_utc_unix_before_2017_boundary⟩
  have h := tai_from_utc_unix_eval_entries (t := utcLeapTable) (x := 1483228800)
    (j := 27) 1483228800 37 1514419200 37 1514419200 37 (by decide) (by decide)
    (by decide) (by decide) (by decide) (by decide) (by norm_num [SECONDS_PER_DAY])
  rw [h, if_neg (by norm_num [SECONDS_PER_DAY])]

set_option maxRecDepth 2000 in
/-- C7 counterexample: on a record sequence that is NOT chronologically sorted
after mapping, `update_leap_second_table` does not fail — it returns a table
(one that violates the ordering invariant).  The claim that construction
fails whenever the input is unsorted is therefore false. -/
theorem claim_C7_counterexample :
    update_leap_second_table [⟨1980, 1, 100, 11⟩, ⟨1975, 1, 50, 10⟩] 1000 =
      some ([(100, 11), (50, 10), (1000, 10)], [(111, 11), (60, 10), (1010, 10)])
    ∧ ¬ ([((100:ℚ), (11:ℚ)), (50, 10)].Pairwise (fun a b => a.1 < b.1)) := by
  with_unfolding_all decide

/-- C7 (amended): table construction fails exactly when the record sequence is
empty after the `year ≥ 1972` filter (unsorted input is NOT detected).  When
it succeeds, the UTC table is the mapped records plus the sentinel
`(expiry, last offset)`, the TAI table is derived entrywise as
`(utc + offset, offset)`, both have identical length and correspond
entry-for-entry, and — provided the mapped records are strictly ascending in
time with non-decreasing offsets and the expiry is after the last record —
both sequences are strictly ascending in their first field. -/
theorem claim_C7 (records : List LeapSecondRecord) (expiry : ℚ) :
    (update_leap_second_table records expiry = none ↔
      records.filter (fun r => 1972 ≤ r.year) = [])
    ∧ (∀ utcT taiT lastEntry,
        ((records.filter (fun r => 1972 ≤ r.year)).map
          (fun r => (r.utc_unix, r.tai_utc))).getLast? = some lastEntry →
        update_leap_second_table records expiry = some (utcT, taiT) →
        utcT = ((records.filter (fun r => 1972 ≤ r.year)).map
            (fun r => (r.utc_unix, r.tai_utc))) ++ [(expiry, lastEntry.2)]
        ∧ taiT = utcT.map (fun e => (e.1 + e.2, e.2))
        ∧ utcT.length = taiT.length
        ∧ (∀ i (hi : i < utcT.length),
            taiT[i]? = some (utcT[i].1 + utcT[i].2, utcT[i].2))
        ∧ (((records.filter (fun r => 1972 ≤ r.year)).map
              (fun r => (r.utc_unix, r.tai_utc))).Pairwise (fun a b => a.1 < b.1) →
           ((records.filter (fun r => 1972 ≤ r.year)).map
              (fun r => (r.utc_unix, r.tai_utc))).Pairwise (fun a b => a.2 ≤ b.2) →
           (∀ e ∈ (records.filter (fun r => 1972 ≤ r.year)).map
              (fun r => (r.utc_unix, r.tai_utc)), e.1 < expiry) →
           utcT.Pairwise (fun a b => a.1 < b.1)
           ∧ taiT.Pairwise (fun a b => a.1 < b.1))) := by
  constructor
  · rw [update_leap_second_table]
    cases hl : ((records.filter (fun r => 1972 ≤ r.year)).map
        (fun r => (r.utc_unix, r.tai_utc))).getLast? with
    | none =>
      have hemp : (records.filter (fun r => 1972 ≤ r.year)).map
          (fun r => (r.utc_unix, r.tai_utc)) = [] :=
        List.getLast?_eq_none_iff.mp hl
      rw [List.map_eq_nil_iff] at hemp
      exact ⟨fun _ => hemp, fun _ => rfl⟩
    | some last =>
      refine ⟨fun h => Option.noConfusion h, fun h => ?_⟩
      rw [h] at hl
      simp at hl
  · intro utcT taiT lastEntry hlast hsome
    rw [update_leap_second_table, hlast] at hsome
    simp only [Option.some.injEq, Prod.mk.injEq] at hsome
    obtain ⟨hu, ht⟩ := hsome
    subst hu
    subst ht
    refine ⟨rfl, rfl, by rw [List.length_map], fun i hi => ?_, fun hs1 hs2 hexp => ?_⟩
    · rw [List.getElem?_eq_getElem (by rw [List.length_map]; exact hi),
        List.getElem_map]
    · have hmem : ∀ e ∈ (records.filter (fun r => 1972 ≤ r.year)).map
          (fun r => (r.utc_unix, r.tai_utc)), e.2 ≤ lastEntry.2 := by
        intro e he
        have hne : ((records.filter (fun r => 1972 ≤ r.year)).map
            (fun r => (r.utc_unix, r.tai_utc))) ≠ [] := by
          intro hcon; rw [hcon] at hlast; simp at hlast
        rw [List.mem_iff_getElem] at he
        obtain ⟨i, hi, rfl⟩ := he
        have hlastelem : lastEntry = ((records.filter (fun r => 1972 ≤ r.year)).map
            (fun r => (r.utc_unix, r.tai_utc))).getLast hne := by
          rw [List.getLast?_eq_getLast _ hne] at hlast
          exact (Option.some.injEq _ _ ▸ hlast).symm
        rw [hlastelem, List.getLast_eq_getElem]
        rcases Nat.lt_or_ge i (((records.filter (fun r => 1972 ≤ r.year)).map
            (fun r => (r.utc_unix, r.tai_utc))).length - 1) with hlt | hge
        · exact List.pairwise_iff_getElem.mp hs2 i _ hi (by omega) hlt
        · have : i = ((records.filter (fun r => 1972 ≤ r.year)).map
              (fun r => (r.utc_unix, r.tai_utc))).length - 1 := by omega
          subst this; exact le_refl _
      have hutc : ((records.filter (fun r => 1972 ≤ r.year)).map
            (fun r => (r.utc_unix, r.tai_utc)) ++ [(expiry, lastEntry.2)]).Pairwise
            (fun a b => a.1 < b.1 ∧ a.2 ≤ b.2) := by
        rw [List.pairwise_append]
        refine ⟨List.Pairwise.and hs1 hs2, by simp, ?_⟩
        intro a ha b hb
        rw [List.mem_singleton] at hb
        subst hb
        exact ⟨hexp a ha, hmem a ha⟩
      constructor
      · exact hutc.imp (fun h => h.1)
      · rw [List.pairwise_map]
        exact hutc.imp (fun h => add_lt_add_of_lt_of_le h.1 h.2)

/-- Witness for C7: the concrete 2017-era records are sorted with
non-decreasing offsets and expire after the last record, so both concrete
tables are strictly ascending in their first field. -/
theorem claim_C7_witness :
    utcLeapTable.Pairwise (fun a b => a.1 < b.1)
    ∧ taiLeapTable.Pairwise (fun a b => a.1 < b.1) := by
  have h := (claim_C7 LEAP_SECOND_RECORDS TABLE_EXPIRY).2 utcLeapTable taiLeapTable
    (1483228800, 37) (by decide) rfl
  exact h.2.2.2.2 (by decide) (by decide) (by decide)

/-! ## Refresh lifecycle (`_update_leap_second_table` as a state transition) -/

/-- The module-level mutable state of tai.py relevant to the refresh
lifecycle: the two published tables (`none` both before the first successful
update, like the Python globals initialised to `None`) and whether an update
timer is armed (`_LEAP_SECOND_TABLE_UPDATE_TIMER` holding a live timer). -/
structure RefreshState where
  utcTable : Option LeapTable
  taiTable : Option LeapTable
  timerArmed : Bool
deriving DecidableEq, Repr

/-- One invocation of the full `_update_leap_second_table` procedure
(tai.py lines 259-311), with the outcome of the external fetch
`astropy.utils.iers.LeapSeconds.auto_open()` passed explicitly: `none` models
the fetch raising.  On success both tables are replaced and a fresh timer is
armed (lines 295-311, cancelling any previous timer first).  On a failure the
exception propagates before any assignment — there is no try/except in the
source — so the state is left exactly as it was. -/
def run_update (fetch : Option (List LeapSecondRecord × ℚ)) :
    Except Unit RefreshState :=
  match fetch with
  | none => .error ()
  | some (records, expiry) =>
    match update_leap_second_table records expiry with
    | none => .error ()
    | some (u, t) =>
      .ok { utcTable := some u, taiTable := some t, timerArmed := true }

/-- The mandatory initial call `_update_leap_second_table()` at module import
(tai.py line 314): any failure propagates synchronously to the importer, so a
process that cannot obtain a table fails at startup. -/
def initial_load (fetch : Option (List LeapSecondRecord × ℚ)) :
    Except Unit RefreshState :=
  run_update fetch

/-- A background timer firing: the one-shot `threading.Timer` is consumed by
firing, then `_update_leap_second_table` runs in the timer thread.  If it
raises, the exception escapes into the thread: the published tables are
untouched, and since the rescheduling code (lines 298-311) is never reached,
no new timer is armed — the refresh chain stops. -/
def background_fire (fetch : Option (List LeapSecondRecord × ℚ))
    (s : RefreshState) : RefreshState :=
  match run_update fetch with
  | .ok s2 => s2
  | .error _ => { s with timerArmed := false }

/-- C8 counterexample: after a background-triggered rebuild fails (fetch
raises), no retry remains scheduled — the timer flag is down, contradicting
the claim that "a retry remains scheduled for a next attempt rather than the
refresh mechanism stopping". -/
theorem claim_C8_counterexample :
    ¬ ((background_fire none
      { utcTable := some [(63072000, 10)], taiTable := some [(63072010, 10)],
        timerArmed := true }).timerArmed = true) := by
  decide

/-- C8 (amended): if the fetch/build step fails, the initial import-time load
surfaces the error synchronously (startup fails), and a background-triggered
rebuild leaves the previously published tables in place unchanged — but no
retry remains scheduled: rescheduling happens only on success, so a background
failure stops the refresh chain. -/
theorem claim_C8 :
    (∀ fetch, fetch = none → initial_load fetch = .error ())
    ∧ (∀ (s : RefreshState) fetch, run_update fetch = .error () →
        (background_fire fetch s).utcTable = s.utcTable
        ∧ (background_fire fetch s).taiTable = s.taiTable
        ∧ (background_fire fetch s).timerArmed = false)
    ∧ (∀ (s : RefreshState) records expiry u t,
        update_leap_second_table records expiry = some (u, t) →
        background_fire (some (records, expiry)) s =
          { utcTable := some u, taiTable := some t, timerArmed := true }) := by
  refine ⟨fun fetch hf => by rw [hf]; rfl, fun s fetch herr => ?_, fun s records expiry u t hu => ?_⟩
  · rw [background_fire, herr]
    exact ⟨rfl, rfl, rfl⟩
  · rw [background_fire, run_update, hu]

/-- Witness for C8: a failing fetch at startup fails synchronously; a failing
background fire on a live state keeps both tables and leaves no timer; a
successful background fire with the concrete records publishes the concrete
tables and re-arms the timer. -/
theorem claim_C8_witness :
    initial_load none = .error ()
    ∧ ((background_fire none
          { utcTable := some [(63072000, 10)], taiTable := some [(63072010, 10)],
            timerArmed := true }).utcTable = some [(63072000, 10)]
        ∧ (background_fire none
          { utcTable := some [(63072000, 10)], taiTable := some [(63072010, 10)],
            timerArmed := true }).taiTable = some [(63072010, 10)]
        ∧ (background_fire none
          { utcTable := some [(63072000, 10)], taiTable := some [(63072010, 10)],
            timerArmed := true }).timerArmed = false)
    ∧ background_fire (some (LEAP_SECOND_RECORDS, TABLE_EXPIRY))
        { utcTable := none, taiTable := none, timerArmed := false } =
        { utcTable := some utcLeapTable, taiTable := some taiLeapTable,
          timerArmed := true } :=
  ⟨claim_C8.1 none rfl,
   claim_C8.2.1 _ none rfl,
   claim_C8.2.2 _ LEAP_SECOND_RECORDS TABLE_EXPIRY utcLeapTable taiLeapTable rfl⟩

/-! ## Clock-source probe (`_get_current_tai_function`) -/

/-- The two possible sources of "current TAI", selected once at import time
(spec's `ClockSourceChoice`): the system atomic clock
(`time.clock_gettime(CLOCK_TAI)`, tai.py lines 337-339) or the computed
fallback `current_tai_from_utc` (line 92). -/
inductive ClockSourceChoice where
  | systemAtomicClock
  | computedFromUtc
deriving DecidableEq, Repr

/-- The observable inputs of the one-shot probe `_get_current_tai_function`
(tai.py lines 317-369): `hasClockGettime` models
`hasattr(time, "clock_gettime")` (line 326); `systemTaiRead` models the first
`system_tai()` call, `none` when `time.clock_gettime` raises `OSError`
(line 347); `computedTaiRead` models `tslow = current_tai_from_utc()`
(line 344). -/
structure ClockProbe where
  hasClockGettime : Bool
  systemTaiRead : Option ℚ
  computedTaiRead : ℚ
deriving DecidableEq, Repr

/-- `_get_current_tai_function` (tai.py lines 317-369) as a choice of clock
source: computed-from-UTC when the platform lacks `clock_gettime`, when the
direct read fails, or when `abs(tslow - tfast) > 1.1` (line 356); the system
TAI clock otherwise.  (The enclosing `except Exception` handler, line 365,
also falls back to computed-from-UTC; no other exception source remains in
this model.) -/
def get_current_tai_function (p : ClockProbe) : ClockSourceChoice :=
  if !p.hasClockGettime then .computedFromUtc
  else
    match p.systemTaiRead with
    | none => .computedFromUtc
    | some tfast =>
      if |p.computedTaiRead - tfast| > 11/10 then .computedFromUtc
      else .systemAtomicClock

/-- `current_tai` (tai.py line 372): the function chosen by the probe, run at
some later time.  The dispatch consults only the stored choice — there is no
re-comparison or re-evaluation. -/
def current_tai (choice : ClockSourceChoice) (systemNow computedNow : ℚ) : ℚ :=
  match choice with
  | .systemAtomicClock => systemNow
  | .computedFromUtc => computedNow

/-- C9: the probe selects computed-from-UTC exactly when the platform lacks
`clock_gettime`, or the direct read fails, or the absolute difference between
the computed and direct reads exceeds 1.1 s; otherwise (exactly) it selects
the system atomic clock; and `current_tai` thereafter dispatches on the
stored choice alone. -/
theorem claim_C9 :
    (∀ p : ClockProbe, get_current_tai_function p = .computedFromUtc ↔
      (p.hasClockGettime = false ∨ p.systemTaiRead = none ∨
        ∃ r, p.systemTaiRead = some r ∧ |p.computedTaiRead - r| > 11/10))
    ∧ (∀ p : ClockProbe, get_current_tai_function p = .systemAtomicClock ↔
      (p.hasClockGettime = true ∧
        ∃ r, p.systemTaiRead = some r ∧ |p.computedTaiRead - r| ≤ 11/10))
    ∧ (∀ a b : ℚ, current_tai .systemAtomicClock a b = a
        ∧ current_tai .computedFromUtc a b = b) := by
  refine ⟨fun p => ?_, fun p => ?_, fun a b => ⟨rfl, rfl⟩⟩
  · obtain ⟨hg, sysr, compr⟩ := p
    cases hg with
    | false => simp [get_current_tai_function]
    | true =>
      cases sysr with
      | none => simp [get_current_tai_function]
      | some r =>
        by_cases hc : |compr - r| > 11/10
        · simp [get_current_tai_function, hc]
        · simp [get_current_tai_function, hc]
  · obtain ⟨hg, sysr, compr⟩ := p
    cases hg with
    | false => simp [get_current_tai_function]
    | true =>
      cases sysr with
      | none => simp [get_current_tai_function]
      | some r =>
        by_cases hc : |compr - r| > 11/10
        · simp [get_current_tai_function, hc]
        · simp [get_current_tai_function, hc, le_of_not_lt hc]

/-- Offsets of a table sorted non-strictly by second field are monotone. -/
lemma off_le_off {t : LeapTable} (hoff : t.Pairwise (fun a b => a.2 ≤ b.2))
    {i j : ℕ} (hij : i ≤ j) (hj : j < t.length) : t[i].2 ≤ t[j].2 := by
  rcases lt_or_eq_of_le hij with h | h
  · exact List.pairwise_iff_getElem.mp hoff i j (lt_trans h hj) hj h
  · subst h; exact le_refl _

/-- C4: for a TAI unix time at least two days away from every table boundary
(and within the table range), the round trip
`tai_from_utc_unix (utc_from_tai_unix tai_unix)` returns exactly `tai_unix`:
at that distance no smearing applies.  The hypotheses (UTC table strictly
ascending, TAI table derived entrywise, offsets non-decreasing with
consecutive jumps of at most a day) all hold for every real leap second
table. -/
theorem claim_C4 (utcT taiT : LeapTable)
    (hd : taiT = utcT.map (fun e => (e.1 + e.2, e.2)))
    (hs : utcT.Pairwise (fun a b => a.1 < b.1))
    (hst : taiT.Pairwise (fun a b => a.1 < b.1))
    (hjump : ∀ k (hk : k < utcT.length - 1),
      utcT[k+1].2 - utcT[k].2 ≤ SECONDS_PER_DAY)
    (tai_unix : ℚ) (hne : 0 < taiT.length)
    (hlow : taiT[0].1 ≤ tai_unix)
    (hhigh : tai_unix ≤ taiT[taiT.length - 1].1)
    (hfar : ∀ e ∈ taiT, 2 * SECONDS_PER_DAY ≤ |tai_unix - e.1|) :
    (utc_from_tai_unix taiT tai_unix).bind (fun u => tai_from_utc_unix utcT u) =
      .ok tai_unix := by
  have hD : (0:ℚ) < SECONDS_PER_DAY := by norm_num [SECONDS_PER_DAY]
  have hTlen : taiT.length = utcT.length := by
    rw [hd]; exact List.length_map _ _
  have hTget : ∀ k (hk : k < utcT.length),
      taiT[k]? = some (utcT[k].1 + utcT[k].2, utcT[k].2) := by
    intro k hk
    rw [hd, List.getElem?_map, List.getElem?_eq_getElem hk]
    rfl
  have hTval : ∀ k (hk : k < utcT.length),
      taiT[k].1 = utcT[k].1 + utcT[k].2 ∧ taiT[k].2 = utcT[k].2 := by
    intro k hk
    have h := hTget k hk
    rw [List.getElem?_eq_getElem (by omega)] at h
    have h2 := Option.some.inj h
    exact ⟨by rw [h2], by rw [h2]⟩
  -- the insertion point is strictly inside the table
  have hpos : 0 < bisect taiT tai_unix := bisect_pos (by omega) hlow
  have hble : bisect taiT tai_unix ≤ taiT.length :=
    bisect_le_length
  have hlt : bisect taiT tai_unix < taiT.length := by
    by_contra hc
    push_neg at hc
    have hle : taiT[taiT.length - 1].1 ≤ tai_unix :=
      le_of_lt_bisect hst (by omega) (by omega)
    have hf := hfar _ (List.getElem_mem (n := taiT.length - 1) (by omega))
    rw [abs_of_nonneg (by linarith)] at hf
    linarith
  obtain ⟨j, hj⟩ : ∃ j, bisect taiT tai_unix = j + 1 :=
    ⟨bisect taiT tai_unix - 1, by omega⟩
  have hj1 : j + 1 < utcT.length := by omega
  have h0 : taiT[j].1 ≤ tai_unix := le_of_lt_bisect hst (by omega) (by omega)
  have h1 : tai_unix < taiT[j+1].1 := lt_of_bisect_le hst (by omega) (by omega)
  have h0v : utcT[j].1 + utcT[j].2 ≤ tai_unix := by
    have := h0; rw [(hTval j (by omega)).1] at this; exact this
  have h1v : tai_unix < utcT[j+1].1 + utcT[j+1].2 := by
    have := h1; rw [(hTval (j+1) (by omega)).1] at this; exact this
  -- two-day distances to the predecessor and successor boundaries
  have hfar0 := hfar _ (List.getElem_mem (l := taiT) (n := j) (by omega))
  have hfar1 := hfar _ (List.getElem_mem (l := taiT) (n := j + 1) (by omega))
  rw [abs_of_nonneg (by linarith)] at hfar0
  rw [abs_of_nonpos (by linarith)] at hfar1
  have hfar0v : utcT[j].1 + utcT[j].2 + 2 * SECONDS_PER_DAY ≤ tai_unix := by
    have := hfar0; rw [(hTval j (by omega)).1] at this; linarith
  have hfar1v : tai_unix ≤ utcT[j+1].1 + utcT[j+1].2 - 2 * SECONDS_PER_DAY := by
    have := hfar1; rw [(hTval (j+1) (by omega)).1] at this; linarith
  -- first conversion: subtract the predecessor entry's offset
  have hstep1 : utc_from_tai_unix taiT tai_unix = .ok (tai_unix - utcT[j].2) := by
    have he := utc_from_tai_unix_eval (t := taiT) (x := tai_unix) hst (j := j)
      (by omega) h0
      (fun k hk hjk => lt_of_lt_of_le h1 (key_le_key hst (by omega) hk))
      hhigh
    rw [he, (hTval j (by omega)).2]
  rw [hstep1]
  simp only [Except.bind]
  -- second conversion: flat branch at the same predecessor index
  have hjm := hjump j (by omega)
  have hflat : (tai_unix - utcT[j].2) + SECONDS_PER_DAY ≤ utcT[j+1].1 := by
    linarith
  have hupY : tai_unix - utcT[j].2 ≤ utcT[utcT.length - 1].1 - SECONDS_PER_DAY := by
    have hm : utcT[j+1].1 ≤ utcT[utcT.length - 1].1 :=
      key_le_key hs (by omega) (by omega)
    linarith
  rw [tai_from_utc_unix_eval_flat hs hj1 (by linarith) hflat hupY]
  norm_num

set_option maxRecDepth 2000 in
/-- Witness for C4 on the concrete tables: `tai_unix = 1275350400`
(mid-2010), far from every boundary; the round trip is exact. -/
theorem claim_C4_witness :
    (utc_from_tai_unix taiLeapTable 1275350400).bind
      (fun u => tai_from_utc_unix utcLeapTable u) = .ok 1275350400 :=
  claim_C4 utcLeapTable taiLeapTable rfl (by decide)
    (by with_unfolding_all decide)
    (by with_unfolding_all decide) 1275350400 (by decide)
    (by with_unfolding_all decide) (by with_unfolding_all decide)
    (by with_unfolding_all decide)

/-- A rational equal to `SECONDS_PER_DAY` times an integer has zero fractional
part after division by `SECONDS_PER_DAY` — the form in which midnight
alignment of leap-second boundaries enters the proofs. -/
lemma fract_div_eq_zero (q : ℚ) (m : ℤ) (h : q = SECONDS_PER_DAY * m) :
    Int.fract (q / SECONDS_PER_DAY) = 0 := by
  have hD : (SECONDS_PER_DAY : ℚ) ≠ 0 := by norm_num [SECONDS_PER_DAY]
  rw [h, mul_comm, mul_div_assoc, div_self hD, mul_one, Int.fract_intCast]

/-- Conversely, zero fractional part of `q / SECONDS_PER_DAY` means `q` is an
integer multiple of `SECONDS_PER_DAY`. -/
lemma eq_mul_floor_of_fract_eq_zero {q : ℚ}
    (h : Int.fract (q / SECONDS_PER_DAY) = 0) :
    q = SECONDS_PER_DAY * ⌊q / SECONDS_PER_DAY⌋ := by
  have hD : (SECONDS_PER_DAY : ℚ) ≠ 0 := by norm_num [SECONDS_PER_DAY]
  have h2 : q / SECONDS_PER_DAY - ⌊q / SECONDS_PER_DAY⌋ = 0 := by
    rw [Int.self_sub_floor]; exact h
  have h3 : q / SECONDS_PER_DAY = (⌊q / SECONDS_PER_DAY⌋ : ℚ) := by linarith
  calc q = q / SECONDS_PER_DAY * SECONDS_PER_DAY := by field_simp
    _ = SECONDS_PER_DAY * ⌊q / SECONDS_PER_DAY⌋ := by
        conv_lhs => rw [h3]
        ring

/-- On a day `(Dm - D, Dm)` before a midnight-aligned boundary `Dm`, the floor
of `x / D` is `m - 1`. -/
lemma floor_on_smear_day {x : ℚ} {m : ℤ}
    (hlo : SECONDS_PER_DAY * m - SECONDS_PER_DAY < x)
    (hhi : x < SECONDS_PER_DAY * m) :
    ⌊x / SECONDS_PER_DAY⌋ = m - 1 := by
  have hD : (0:ℚ) < SECONDS_PER_DAY := by norm_num [SECONDS_PER_DAY]
  rw [Int.floor_eq_iff]
  constructor
  · rw [le_div_iff₀ hD]
    push_cast
    linarith
  · rw [div_lt_iff₀ hD]
    push_cast
    linarith

set_option maxHeartbeats 1000000 in
/-- The offset applied by `tai_from_utc_unix` is monotone in the input over
the accepted domain: the day-smearing ramps join the flat steps with no drop.
This is the heart of monotonicity and continuity of the conversion. -/
lemma applied_offset_mono (table : LeapTable)
    (hs : table.Pairwise (fun a b => a.1 < b.1))
    (hoff : table.Pairwise (fun a b => a.2 ≤ b.2))
    (hdiv : ∀ k (hk : k < table.length - 1),
      Int.fract (table[k].1 / SECONDS_PER_DAY) = 0)
    (hlen : 2 ≤ table.length) :
    ∀ x1 x2 v1 v2,
      table[0].1 ≤ x1 → x1 ≤ table[table.length - 1].1 - SECONDS_PER_DAY →
      table[0].1 ≤ x2 → x2 ≤ table[table.length - 1].1 - SECONDS_PER_DAY →
      x1 ≤ x2 →
      tai_from_utc_unix table x1 = .ok v1 →
      tai_from_utc_unix table x2 = .ok v2 →
      v1 - x1 ≤ v2 - x2 := by
  intro x1 x2 v1 v2 hl1 hu1 hl2 hu2 hx hv1 hv2
  have hD : (0:ℚ) < SECONDS_PER_DAY := by norm_num [SECONDS_PER_DAY]
  have hlast : table[0].1 ≤ table[table.length - 1].1 :=
    key_le_key hs (by omega) (by omega)
  have hpos1 : 0 < bisect table x1 := bisect_pos (by omega) hl1
  have hpos2 : 0 < bisect table x2 := bisect_pos (by omega) hl2
  have hlt1 : bisect table x1 < table.length :=
    bisect_lt_length (by omega) (by linarith)
  have hlt2 : bisect table x2 < table.length :=
    bisect_lt_length (by omega) (by linarith)
  obtain ⟨j1, hj1⟩ : ∃ j, bisect table x1 = j + 1 := ⟨bisect table x1 - 1, by omega⟩
  obtain ⟨j2, hj2⟩ : ∃ j, bisect table x2 = j + 1 := ⟨bisect table x2 - 1, by omega⟩
  have h01 : table[j1].1 ≤ x1 := le_of_lt_bisect hs (by omega) (by omega)
  have h11 : x1 < table[j1+1].1 := lt_of_bisect_le hs (by omega) (by omega)
  have h02 : table[j2].1 ≤ x2 := le_of_lt_bisect hs (by omega) (by omega)
  have h12 : x2 < table[j2+1].1 := lt_of_bisect_le hs (by omega) (by omega)
  have he1 := tai_from_utc_unix_eval hs (j := j1) (by omega) h01 h11 hu1
  have he2 := tai_from_utc_unix_eval hs (j := j2) (by omega) h02 h12 hu2
  have hveq1 := Except.ok.inj (hv1.symm.trans he1)
  have hveq2 := Except.ok.inj (hv2.symm.trans he2)
  rw [hveq1, hveq2, add_sub_cancel_left, add_sub_cancel_left]
  -- the insertion point is monotone in the input
  have hjle : j1 ≤ j2 := by
    have : bisect table x1 ≤ bisect table x2 := by
      apply List.countP_mono_left
      intro e he hpe
      simp only [decide_eq_true_eq] at hpe ⊢
      linarith
    omega
  -- the consecutive-offset jump at each boundary is non-negative
  have hjump1 : table[j1].2 ≤ table[j1+1].2 :=
    List.pairwise_iff_getElem.mp hoff j1 (j1+1) (by omega) (by omega) (by omega)
  have hjump2 : table[j2].2 ≤ table[j2+1].2 :=
    List.pairwise_iff_getElem.mp hoff j2 (j2+1) (by omega) (by omega) (by omega)
  rcases Nat.lt_or_ge j1 j2 with hcase | hcase
  · -- different segments: bound through the offsets at the boundary between
    have hg1 : (if x1 + SECONDS_PER_DAY > table[j1+1].1 then
        table[j1].2 + (table[j1+1].2 - table[j1].2) *
          (x1 / SECONDS_PER_DAY - ⌊x1 / SECONDS_PER_DAY⌋)
      else table[j1].2) ≤ table[j1+1].2 := by
      split
      · have hfr1 : x1 / SECONDS_PER_DAY - ⌊x1 / SECONDS_PER_DAY⌋ < 1 := by
          rw [Int.self_sub_floor]; exact Int.fract_lt_one _
        have hfr0 : 0 ≤ x1 / SECONDS_PER_DAY - ⌊x1 / SECONDS_PER_DAY⌋ := by
          rw [Int.self_sub_floor]; exact Int.fract_nonneg _
        nlinarith
      · exact hjump1
    have hg2 : table[j2].2 ≤ (if x2 + SECONDS_PER_DAY > table[j2+1].1 then
        table[j2].2 + (table[j2+1].2 - table[j2].2) *
          (x2 / SECONDS_PER_DAY - ⌊x2 / SECONDS_PER_DAY⌋)
      else table[j2].2) := by
      split
      · have hfr0 : 0 ≤ x2 / SECONDS_PER_DAY - ⌊x2 / SECONDS_PER_DAY⌋ := by
          rw [Int.self_sub_floor]; exact Int.fract_nonneg _
        nlinarith
      · exact le_refl _
    have hmid : table[j1+1].2 ≤ table[j2].2 := off_le_off hoff (by omega) (by omega)
    linarith
  · -- same segment
    have hjeq : j1 = j2 := by omega
    subst hjeq
    by_cases hc1 : x1 + SECONDS_PER_DAY > table[j1+1].1 <;>
      by_cases hc2 : x2 + SECONDS_PER_DAY > table[j1+1].1
    · -- both in the smear zone: same unix day, linear ramp with slope ≥ 0
      rw [if_pos hc1, if_pos hc2]
      have hnotlast : j1 + 1 < table.length - 1 := by
        rcases Nat.lt_or_ge (j1+1) (table.length - 1) with h | h
        · exact h
        · exfalso
          have hj1last : j1 + 1 = table.length - 1 := by omega
          simp only [hj1last] at hc1
          linarith
      have hum := eq_mul_floor_of_fract_eq_zero (hdiv (j1+1) hnotlast)
      have hf1 : ⌊x1 / SECONDS_PER_DAY⌋ = ⌊table[j1+1].1 / SECONDS_PER_DAY⌋ - 1 :=
        floor_on_smear_day (by linarith) (by linarith)
      have hf2 : ⌊x2 / SECONDS_PER_DAY⌋ = ⌊table[j1+1].1 / SECONDS_PER_DAY⌋ - 1 :=
        floor_on_smear_day (by linarith) (by linarith)
      rw [hf1, hf2]
      have hdivle : x1 / SECONDS_PER_DAY ≤ x2 / SECONDS_PER_DAY :=
        (div_le_div_iff_of_pos_right hD).mpr hx
      have hjmp : (0:ℚ) ≤ table[j1+1].2 - table[j1].2 := by linarith
      have hkey := mul_le_mul_of_nonneg_left hdivle hjmp
      push_cast
      nlinarith [hkey]
    · exfalso
      push_neg at hc2
      linarith
    · rw [if_neg hc1, if_pos hc2]
      have hfr0 : 0 ≤ x2 / SECONDS_PER_DAY - ⌊x2 / SECONDS_PER_DAY⌋ := by
        rw [Int.self_sub_floor]; exact Int.fract_nonneg _
      nlinarith
    · rw [if_neg hc1, if_neg hc2]

/-- C5: on its accepted domain `[first entry, expiry - 86400]`,
`tai_from_utc_unix` is strictly increasing, and it is continuous: on the day
before each real boundary `table[k].1` it coincides exactly with the linear
interpolant joining `t + off0` at the start of the day to `t + off1` at the
boundary, so each smear day maps onto exactly `86400 + (off1 - off0)` TAI
seconds with no jump at the entry into the smear day or at the boundary.
The hypotheses (strictly ascending keys, non-decreasing offsets, boundaries
at least two days apart, real boundaries midnight-aligned) hold for every
real leap second table. -/
theorem claim_C5 (table : LeapTable)
    (hs : table.Pairwise (fun a b => a.1 < b.1))
    (hoff : table.Pairwise (fun a b => a.2 ≤ b.2))
    (hgap : ∀ k (hk : k < table.length - 1),
      table[k].1 + 2 * SECONDS_PER_DAY ≤ table[k+1].1)
    (hdiv : ∀ k (hk : k < table.length - 1),
      Int.fract (table[k].1 / SECONDS_PER_DAY) = 0)
    (hlen : 2 ≤ table.length) :
    (∀ x1 x2 v1 v2,
      table[0].1 ≤ x1 → x1 ≤ table[table.length - 1].1 - SECONDS_PER_DAY →
      table[0].1 ≤ x2 → x2 ≤ table[table.length - 1].1 - SECONDS_PER_DAY →
      x1 < x2 →
      tai_from_utc_unix table x1 = .ok v1 →
      tai_from_utc_unix table x2 = .ok v2 →
      v1 < v2)
    ∧ (∀ k (hk0 : 1 ≤ k) (hk : k < table.length - 1) (x : ℚ),
        table[k].1 - SECONDS_PER_DAY ≤ x → x ≤ table[k].1 →
        tai_from_utc_unix table x =
          .ok (x + (table[k-1].2 + (table[k].2 - table[k-1].2) *
            ((x - table[k].1 + SECONDS_PER_DAY) / SECONDS_PER_DAY)))) := by
  have hD : (0:ℚ) < SECONDS_PER_DAY := by norm_num [SECONDS_PER_DAY]
  have hD0 : (SECONDS_PER_DAY : ℚ) ≠ 0 := ne_of_gt hD
  constructor
  · intro x1 x2 v1 v2 hl1 hu1 hl2 hu2 hx hv1 hv2
    have hmono := applied_offset_mono table hs hoff hdiv hlen x1 x2 v1 v2
      hl1 hu1 hl2 hu2 (le_of_lt hx) hv1 hv2
    linarith
  · intro k hk0 hk x hx1 hx2
    have hgapk : table[k-1].1 + 2 * SECONDS_PER_DAY ≤ table[k].1 := by
      have h := hgap (k-1) (by omega)
      simpa only [show k - 1 + 1 = k from by omega] using h
    have hgapk2 : table[k].1 + 2 * SECONDS_PER_DAY ≤ table[k+1].1 := hgap k hk
    have hup : x ≤ table[table.length - 1].1 - SECONDS_PER_DAY := by
      have hm : table[k+1].1 ≤ table[table.length - 1].1 :=
        key_le_key hs (by omega) (by omega)
      linarith
    have hum := eq_mul_floor_of_fract_eq_zero (hdiv k hk)
    rcases eq_or_lt_of_le hx2 with heq | hlt
    · -- exactly at the boundary: the lookup already uses the new offset,
      -- and the ramp formula evaluates to the same value (no jump)
      have hflat : x + SECONDS_PER_DAY ≤ table[k+1].1 := by
        rw [heq]; linarith
      rw [tai_from_utc_unix_eval_flat hs (j := k)
        (by omega : k + 1 < table.length) (le_of_eq heq.symm) hflat hup]
      congr 1
      rw [heq]
      field_simp
    · have h0' : table[k-1].1 ≤ x := by linarith
      have h1' : x < table[k-1+1].1 := by
        simpa only [show k - 1 + 1 = k from by omega] using hlt
      have he := tai_from_utc_unix_eval hs (j := k-1) (by omega) h0' h1' hup
      simp only [show k - 1 + 1 = k from by omega] at he
      rw [he]
      rcases eq_or_lt_of_le hx1 with heq1 | hlt1
      · -- at the entry into the smear day: flat branch, ramp evaluates to 0
        rw [if_neg (by push_neg; linarith [heq1])]
        congr 1
        rw [← heq1]
        ring
      · -- in the open smear zone: the fractional day gives the ramp exactly
        rw [if_pos (by linarith)]
        have hfl : ⌊x / SECONDS_PER_DAY⌋ = ⌊table[k].1 / SECONDS_PER_DAY⌋ - 1 :=
          floor_on_smear_day (by linarith) (by linarith)
        rw [hfl]
        congr 1
        conv_rhs => rw [hum]
        push_cast
        have hexp : x / SECONDS_PER_DAY - (⌊table[k].1 / SECONDS_PER_DAY⌋ : ℚ) + 1
            = (x - SECONDS_PER_DAY * (⌊table[k].1 / SECONDS_PER_DAY⌋ : ℚ)
                + SECONDS_PER_DAY) / SECONDS_PER_DAY := by
          field_simp
        rw [← hexp]
        ring

set_option maxRecDepth 2000 in
/-- Witness for C5 on the concrete table: strict monotonicity between two
flat-era points (2001 at offset 32 and 2008 at offset 33), and the exact
linear ramp formula one second before the 2017-01-01 boundary. -/
theorem claim_C5_witness :
    ((1000000032 : ℚ) < 1200000033)
    ∧ tai_from_utc_unix utcLeapTable 1483228799 =
        .ok (1483228799 + ((utcLeapTable.get ⟨26, by decide⟩).2 +
          ((utcLeapTable.get ⟨27, by decide⟩).2 -
            (utcLeapTable.get ⟨26, by decide⟩).2) *
          ((1483228799 - (utcLeapTable.get ⟨27, by decide⟩).1 + SECONDS_PER_DAY) /
            SECONDS_PER_DAY))) := by
  have h := claim_C5 utcLeapTable (by decide) (by decide)
    (by with_unfolding_all decide) (by with_unfolding_all decide) (by decide)
  refine ⟨?_, ?_⟩
  · refine h.1 1000000000 1200000000 1000000032 1200000033 (by decide)
      (by with_unfolding_all decide) (by decide) (by with_unfolding_all decide)
      (by norm_num) ?_ ?_
    · have he := tai_from_utc_unix_eval_entries (t := utcLeapTable)
        (x := 1000000000) (j := 22) 915148800 32 1136073600 33 1514419200 37
        (by decide) (by decide) (by decide) (by decide) (by decide) (by decide)
        (by norm_num [SECONDS_PER_DAY])
      rw [he, if_neg (by norm_num [SECONDS_PER_DAY])]
      norm_num
    · have he := tai_from_utc_unix_eval_entries (t := utcLeapTable)
        (x := 1200000000) (j := 23) 1136073600 33 1230768000 34 1514419200 37
        (by decide) (by decide) (by decide) (by decide) (by decide) (by decide)
        (by norm_num [SECONDS_PER_DAY])
      rw [he, if_neg (by norm_num [SECONDS_PER_DAY])]
      norm_num
  · exact h.2 27 (by decide) (by decide) 1483228799
      (by with_unfolding_all decide) (by decide)

end TsUtils
